import Mathlib

/-!
Verification development for the quadratic-voting Discord bot
(`src/main.rs`).  The per-guild election state (suggested topics, user
point balances, candidate vote table) and the operations `slash_vote`,
`slash_points`, `slash_prop` (via `handle_prop_command`), `winners` and
`slash_stop_internal` are shallowly embedded below.  `HashMap`s are
modelled as association lists (`lookupA` is `get`, `insertA` is
`insert`, i.e. replace-or-append); `usize` atomics are modelled as `Nat`
with explicit wrapping arithmetic modulo `2 ^ 64` (`uadd`/`usub` mirror
`fetch_add`/`fetch_sub`).
-/

namespace QV

/-- Modulus of Rust's `usize` on a 64-bit target. -/
def USIZE : Nat := 2 ^ 64

/-- Wrapping `usize` addition (`AtomicUsize::fetch_add`). -/
def uadd (a b : Nat) : Nat := (a + b) % USIZE

/-- Wrapping `usize` subtraction (`AtomicUsize::fetch_sub`). -/
def usub (a b : Nat) : Nat := (a + USIZE - b % USIZE) % USIZE

/-- `STARTING_POINTS` from `main.rs`: every user starts with 100 points. -/
def STARTING_POINTS : Nat := 100

/-- `CONVENIENT_WINNERS` from `main.rs`: number of winners displayed. -/
def CONVENIENT_WINNERS : Nat := 5

/-- `HashMap::get` on an association list: first entry with the key. -/
def lookupA {α : Type} : List (Nat × α) → Nat → Option α
  | [], _ => none
  | (k, v) :: rest, k2 => if k = k2 then some v else lookupA rest k2

/-- `HashMap::insert` on an association list: replace the entry with the
key if present, append otherwise. -/
def insertA {α : Type} : List (Nat × α) → Nat → α → List (Nat × α)
  | [], k, v => [(k, v)]
  | (k1, v1) :: rest, k, v =>
      if k1 = k then (k, v) :: rest else (k1, v1) :: insertA rest k v

/-- One entry of the `votes` map: `(String, AtomicUsize, HashMap<UserId,
AtomicUsize>)` — candidate text, aggregate vote total, and per-user
votes cast. -/
structure CandidateEntry where
  text : String
  total : Nat
  userVotes : List (Nat × Nat)
deriving DecidableEq

/-- The per-guild election state held by `Handler`: `upcoming_topics`
(`Vec<String>`), `points` (`HashMap<UserId, AtomicUsize>`) and `votes`
(`HashMap<usize, (String, AtomicUsize, HashMap<UserId, AtomicUsize>)>`). -/
structure GuildState where
  upcomingTopics : List String
  points : List (Nat × Nat)
  votes : List (Nat × CandidateEntry)
deriving DecidableEq

/-- `in_suggestion_period`: the guild's topic list is non-empty. -/
def in_suggestion_period (st : GuildState) : Bool := !st.upcomingTopics.isEmpty

/-- `in_vote_period`: the guild's votes map is non-empty. -/
def in_vote_period (st : GuildState) : Bool := !st.votes.isEmpty

/-- `slash_points`: the sender's remaining points, or `STARTING_POINTS`
if the user has never acted (`unwrap_or(STARTING_POINTS)`). -/
def slash_points (st : GuildState) (user : Nat) : Nat :=
  (lookupA st.points user).getD STARTING_POINTS

/-- Outcome of `slash_vote`, tagging which result message is returned. -/
inductive VoteResult where
  | invalidVoteCount : VoteResult
  | invalidCandidateId : VoteResult
  | unknownCandidate : VoteResult
  | insufficientPoints (requested canSpend : Nat) : VoteResult
  | ok (votesCast candidateId remaining : Nat) : VoteResult
deriving DecidableEq

/-- Whether a `VoteResult` is the "Insufficient points!" failure. -/
def VoteResult.isInsufficient : VoteResult → Bool
  | .insufficientPoints _ _ => true
  | _ => false

/-- The lazy creation of a user's points entry performed by `slash_vote`
before the credit check (`points_lock.write().await.insert(user,
AtomicUsize::new(STARTING_POINTS))` when absent). -/
def lazyPoints (points : List (Nat × Nat)) (user : Nat) : List (Nat × Nat) :=
  match lookupA points user with
  | none => insertA points user STARTING_POINTS
  | some _ => points

/-- `slash_vote(votes, candidate_id)` for one guild, executed
sequentially.  Mirrors `main.rs` lines 742–831: vote-count range check,
rejection of the 1-based id 0, translation to the 0-based internal id,
existence check, lazy points entry, credit check against
`balance + old ^ 2`, and the compound update (swap the allocation,
adjust the aggregate total with wrapping ops, refund `old ^ 2`, charge
`votes ^ 2`). -/
def slash_vote (st : GuildState) (user votes candidate_id : Nat) :
    VoteResult × GuildState :=
  if votes = 0 ∨ 10 < votes then (.invalidVoteCount, st)
  else if candidate_id = 0 then (.invalidCandidateId, st)
  else
    match lookupA st.votes (candidate_id - 1) with
    | none => (.unknownCandidate, st)
    | some entry =>
      let points1 := lazyPoints st.points user
      let req := votes ^ 2
      let bal := (lookupA points1 user).getD 0
      let canSpend :=
        match lookupA entry.userVotes user with
        | some old => bal + old ^ 2
        | none => bal
      if canSpend < req then
        (.insufficientPoints req canSpend, { st with points := points1 })
      else
        match lookupA entry.userVotes user with
        | some prev =>
          let bal2 := usub (uadd bal (prev ^ 2)) req
          (.ok votes candidate_id bal2,
           { st with
               points := insertA points1 user bal2
               votes := insertA st.votes (candidate_id - 1)
                 { entry with
                     userVotes := insertA entry.userVotes user votes
                     total := uadd (usub entry.total prev) votes } })
        | none =>
          let bal2 := usub bal req
          (.ok votes candidate_id bal2,
           { st with
               points := insertA points1 user bal2
               votes := insertA st.votes (candidate_id - 1)
                 { entry with
                     userVotes := insertA entry.userVotes user votes
                     total := uadd entry.total votes } })

/-- The check section of `slash_vote` (lines 784–799), which runs under
read locks that are dropped before the update: decides whether the
request passes the credit check against the state as read then. -/
def voteCheckPasses (st : GuildState) (user votes internal : Nat) : Bool :=
  match lookupA st.votes internal with
  | none => false
  | some entry =>
    let bal := (lookupA (lazyPoints st.points user) user).getD 0
    let canSpend :=
      match lookupA entry.userVotes user with
      | some old => bal + old ^ 2
      | none => bal
    decide (votes ^ 2 ≤ canSpend)

/-- The update section of `slash_vote` (lines 803–822), which runs
later under the votes-map write lock and re-reads the allocation and the
points atomic at update time; nothing carries over from the check. -/
def voteApply (st : GuildState) (user votes internal : Nat) : GuildState :=
  match lookupA st.votes internal with
  | none => st
  | some entry =>
    let bal := (lookupA st.points user).getD 0
    match lookupA entry.userVotes user with
    | some prev =>
      { st with
          points := insertA st.points user (usub (uadd bal (prev ^ 2)) (votes ^ 2))
          votes := insertA st.votes internal
            { entry with
                userVotes := insertA entry.userVotes user votes
                total := uadd (usub entry.total prev) votes } }
    | none =>
      { st with
          points := insertA st.points user (usub bal (votes ^ 2))
          votes := insertA st.votes internal
            { entry with
                userVotes := insertA entry.userVotes user votes
                total := uadd entry.total votes } }

/-- Sum over all candidates of the square of this user's current vote
allocation (0 where the user has no allocation). -/
def userAllocSum (st : GuildState) (u : Nat) : Nat :=
  (st.votes.map (fun p => ((lookupA p.2.userVotes u).getD 0) ^ 2)).sum

/-- Apply a sequence of `slash_vote` calls `(user, votes, candidate_id)`
in order, keeping only the state. -/
def applyVotes (st : GuildState) (ops : List (Nat × Nat × Nat)) : GuildState :=
  ops.foldl (fun s op => (slash_vote s op.1 op.2.1 op.2.2).2) st

/-- A state at the start of a voting phase, as `slash_stop_internal`
produces it: every known user's balance is the starting constant (or the
user is unknown), and no candidate has any per-user allocation yet. -/
def StartOfVoting (st : GuildState) : Prop :=
  (∀ u, lookupA st.points u = none ∨ lookupA st.points u = some STARTING_POINTS) ∧
  (∀ p ∈ st.votes, p.2.userVotes = [])

/-- The quadratic-balance invariant: every user's balance plus the sum
of the squares of that user's current allocations equals the starting
constant. -/
def balInv (st : GuildState) : Prop :=
  ∀ x, slash_points st x + userAllocSum st x = STARTING_POINTS

/-- Stable insertion into a list kept in descending order of the vote
count, earlier elements winning ties: the order produced by the stable
`sort_by(|b, a| a.1.partial_cmp(&b.1))` in `winners`. -/
def insertDesc (x : String × Nat) : List (String × Nat) → List (String × Nat)
  | [] => [x]
  | y :: ys => if y.2 ≤ x.2 then x :: y :: ys else y :: insertDesc x ys

/-- Stable sort by vote count, descending — the result of Rust's stable
`sort_by` with the reversed comparator used in `winners`. -/
def sortDesc (l : List (String × Nat)) : List (String × Nat) :=
  l.foldr insertDesc []

/-- `winners`: takes the `(text, total)` pairs in the votes map's
iteration order (the list argument), sorts them by total descending
(stable; the map's iteration order is the only tie-break), formats each
as `"text: total"` and keeps the first `CONVENIENT_WINNERS`. -/
def winners (l : List (String × Nat)) : List String :=
  ((sortDesc l).take CONVENIENT_WINNERS).map (fun w => w.1 ++ ": " ++ toString w.2)

/-- ASCII whitespace, standing in for `char::is_whitespace` in
`str::trim`; all inputs considered here are ASCII. -/
def isWS (c : Char) : Bool := c = ' ' ∨ c = '\t' ∨ c = '\n' ∨ c = '\r'

/-- Rust `str::trim`: drop leading and trailing whitespace. -/
def rustTrim (s : String) : String :=
  ⟨((s.data.dropWhile isWS).reverse.dropWhile isWS).reverse⟩

/-- Rust `str::len`: the UTF-8 byte length of the string. -/
def utf8Len (s : String) : Nat := (s.data.map Char.utf8Size).sum

/-- Outcome of a `/prop` command, tagging which message is returned. -/
inductive PropResult where
  | emptyIdea : PropResult
  | tooLong : PropResult
  | wrongPhase : PropResult
  | duplicateProposal : PropResult
  | added : PropResult
deriving DecidableEq

/-- `/prop` handling: `handle_prop_command` rejects an idea that trims
to empty and passes the trimmed idea to `slash_prop`, which rejects
ideas over 100 bytes, rejects proposing during the voting period,
reports a duplicate when the exact trimmed text is already contained in
`upcoming_topics`, and otherwise pushes the idea. -/
def handle_prop (st : GuildState) (rawIdea : String) : PropResult × GuildState :=
  let idea := rustTrim rawIdea
  if idea = "" then (.emptyIdea, st)
  else if 100 < utf8Len idea then (.tooLong, st)
  else if in_vote_period st then (.wrongPhase, st)
  else if idea ∈ st.upcomingTopics then (.duplicateProposal, st)
  else (.added, { st with upcomingTopics := st.upcomingTopics ++ [idea] })

/-- Outcome of `slash_stop_internal`, tagging which branch ran and what
it announced. -/
inductive StopResult where
  | movedToVoting (candidateCount : Nat) : StopResult
  | electionCompleted (winnerLines : List String) : StopResult
  | noActiveElection : StopResult
deriving DecidableEq

/-- The candidate freeze inside `slash_stop_internal`: insert candidate
`i ↦ (name, 0, {})` for each suggested topic, in topic order. -/
def freezeCandidates (m : List (Nat × CandidateEntry)) (names : List String) :
    List (Nat × CandidateEntry) :=
  names.enum.foldl (fun acc p => insertA acc p.1 ⟨p.2, 0, []⟩) m

/-- `slash_stop_internal` (lines 939–993): if topics are non-empty,
freeze them into the votes map and clear the topics (move to voting);
otherwise if the votes map is non-empty, announce the winners, clear the
votes map and reset every known user's points to `STARTING_POINTS`;
otherwise report that there is no active election, changing nothing. -/
def slash_stop_internal (st : GuildState) : StopResult × GuildState :=
  if in_suggestion_period st then
    (.movedToVoting st.upcomingTopics.length,
     { st with
         votes := freezeCandidates st.votes st.upcomingTopics
         upcomingTopics := [] })
  else if in_vote_period st then
    (.electionCompleted (winners (st.votes.map (fun p => (p.2.text, p.2.total)))),
     { st with
         votes := []
         points := st.points.map (fun p => (p.1, STARTING_POINTS)) })
  else (.noActiveElection, st)

/-! ### Helper lemmas about the wrapping arithmetic and association lists -/

theorem usize_large : 2 ^ 63 < USIZE := by
  unfold USIZE; norm_num

theorem uadd_eq {a b : Nat} (h : a + b < USIZE) : uadd a b = a + b :=
  Nat.mod_eq_of_lt h

theorem usub_eq {a b : Nat} (h1 : b ≤ a) (h2 : a < USIZE) : usub a b = a - b := by
  have hU : USIZE = 18446744073709551616 := by norm_num [USIZE]
  unfold usub
  have hb : b % USIZE = b := Nat.mod_eq_of_lt (by omega)
  rw [hb]
  have h3 : a + USIZE - b = (a - b) + USIZE := by omega
  rw [h3, Nat.add_mod_right]
  exact Nat.mod_eq_of_lt (by omega)

theorem lookupA_insertA_self {α : Type} (m : List (Nat × α)) (k : Nat) (v : α) :
    lookupA (insertA m k v) k = some v := by
  induction m with
  | nil => simp [insertA, lookupA]
  | cons hd tl ih =>
    obtain ⟨k1, v1⟩ := hd
    by_cases h : k1 = k
    · subst h
      simp [insertA, lookupA]
    · simp [insertA, h, lookupA, ih]

theorem lookupA_insertA_ne {α : Type} (m : List (Nat × α)) {k k2 : Nat} (v : α)
    (h : k2 ≠ k) : lookupA (insertA m k v) k2 = lookupA m k2 := by
  induction m with
  | nil =>
    simp only [insertA, lookupA]
    rw [if_neg (fun hh => h hh.symm)]
  | cons hd tl ih =>
    obtain ⟨k1, v1⟩ := hd
    by_cases hk : k1 = k
    · subst hk
      simp only [insertA, if_pos rfl, lookupA]
      rw [if_neg (fun hh => h hh.symm), if_neg (fun hh => h hh.symm)]
    · simp only [insertA, if_neg hk, lookupA, ih]

theorem mem_of_lookupA {α : Type} {m : List (Nat × α)} {k : Nat} {v : α}
    (h : lookupA m k = some v) : (k, v) ∈ m := by
  induction m with
  | nil => simp [lookupA] at h
  | cons hd tl ih =>
    obtain ⟨k1, v1⟩ := hd
    by_cases hk : k1 = k
    · subst hk
      simp only [lookupA, if_pos rfl] at h
      injection h with h1
      subst h1
      exact List.mem_cons_self _ _
    · simp only [lookupA, if_neg hk] at h
      exact List.mem_cons_of_mem _ (ih h)

theorem sum_insertA {α : Type} (g : Nat × α → Nat) {m : List (Nat × α)}
    {k : Nat} {e : α} (v : α) (he : lookupA m k = some e) :
    ((insertA m k v).map g).sum + g (k, e) = (m.map g).sum + g (k, v) := by
  induction m with
  | nil => simp [lookupA] at he
  | cons hd tl ih =>
    obtain ⟨k1, v1⟩ := hd
    by_cases hk : k1 = k
    · subst hk
      simp only [lookupA, if_pos rfl] at he
      injection he with he1
      subst he1
      have hstep : insertA ((k1, v1) :: tl) k1 v = (k1, v) :: tl := by
        simp [insertA]
      rw [hstep]
      simp only [List.map_cons, List.sum_cons]
      omega
    · simp only [lookupA, if_neg hk] at he
      simp only [insertA, if_neg hk, List.map_cons, List.sum_cons]
      have := ih he
      omega

theorem mem_le_sum {l : List Nat} {a : Nat} (h : a ∈ l) : a ≤ l.sum := by
  induction l with
  | nil => simp at h
  | cons hd tl ih =>
    rcases List.mem_cons.mp h with h1 | h2
    · subst h1
      simp only [List.sum_cons]
      omega
    · have := ih h2
      simp only [List.sum_cons]
      omega

theorem lookupA_lazyPoints_self (p : List (Nat × Nat)) (u : Nat) :
    lookupA (lazyPoints p u) u = some ((lookupA p u).getD STARTING_POINTS) := by
  unfold lazyPoints
  cases h : lookupA p u with
  | none => simp [h, lookupA_insertA_self]
  | some b => simp [h]

theorem lookupA_lazyPoints_ne (p : List (Nat × Nat)) {u w : Nat} (h : w ≠ u) :
    lookupA (lazyPoints p u) w = lookupA p w := by
  unfold lazyPoints
  cases hp : lookupA p u with
  | none => simp [lookupA_insertA_ne _ _ h]
  | some b => rfl

theorem slash_points_def (st : GuildState) (u : Nat) :
    slash_points st u = (lookupA st.points u).getD STARTING_POINTS := rfl

theorem slash_points_lazy (st : GuildState) (u : Nat) :
    (lookupA (lazyPoints st.points u) u).getD 0 = slash_points st u := by
  rw [lookupA_lazyPoints_self]
  rfl

/-! ### Branch equations for `slash_vote` -/

theorem slash_vote_invalid (st : GuildState) (u v cid : Nat)
    (h : v = 0 ∨ 10 < v) :
    slash_vote st u v cid = (.invalidVoteCount, st) := by
  unfold slash_vote
  rw [if_pos h]

theorem slash_vote_cid0 (st : GuildState) (u v : Nat) (hv : ¬(v = 0 ∨ 10 < v)) :
    slash_vote st u v 0 = (.invalidCandidateId, st) := by
  unfold slash_vote
  rw [if_neg hv, if_pos rfl]

theorem slash_vote_unknown (st : GuildState) (u v cid : Nat)
    (hv : ¬(v = 0 ∨ 10 < v)) (hcid : cid ≠ 0)
    (hc : lookupA st.votes (cid - 1) = none) :
    slash_vote st u v cid = (.unknownCandidate, st) := by
  unfold slash_vote
  rw [if_neg hv, if_neg hcid, hc]

theorem slash_vote_insufficient (st : GuildState) (u v cid : Nat)
    (entry : CandidateEntry)
    (hv : ¬(v = 0 ∨ 10 < v)) (hcid : cid ≠ 0)
    (hc : lookupA st.votes (cid - 1) = some entry)
    (hlt : slash_points st u + ((lookupA entry.userVotes u).getD 0) ^ 2 < v ^ 2) :
    slash_vote st u v cid =
      (.insufficientPoints (v ^ 2)
         (slash_points st u + ((lookupA entry.userVotes u).getD 0) ^ 2),
       { st with points := lazyPoints st.points u }) := by
  unfold slash_vote
  rw [if_neg hv, if_neg hcid, hc]
  simp only [slash_points_lazy]
  cases ho : lookupA entry.userVotes u with
  | none =>
    simp only [ho, Option.getD_none, pow_two, Nat.zero_mul, Nat.add_zero] at hlt ⊢
    rw [if_pos (by omega)]
  | some old =>
    simp only [ho, Option.getD_some] at hlt ⊢
    rw [if_pos hlt]

theorem slash_vote_success_some (st : GuildState) (u v cid : Nat)
    (entry : CandidateEntry) (prev : Nat)
    (hv : ¬(v = 0 ∨ 10 < v)) (hcid : cid ≠ 0)
    (hc : lookupA st.votes (cid - 1) = some entry)
    (hprev : lookupA entry.userVotes u = some prev)
    (hge : v ^ 2 ≤ slash_points st u + prev ^ 2) :
    slash_vote st u v cid =
      (.ok v cid (usub (uadd (slash_points st u) (prev ^ 2)) (v ^ 2)),
       { st with
           points := insertA (lazyPoints st.points u) u
             (usub (uadd (slash_points st u) (prev ^ 2)) (v ^ 2))
           votes := insertA st.votes (cid - 1)
             { entry with
                 userVotes := insertA entry.userVotes u v
                 total := uadd (usub entry.total prev) v } }) := by
  unfold slash_vote
  rw [if_neg hv, if_neg hcid, hc]
  simp only [slash_points_lazy, hprev]
  rw [if_neg (not_lt.mpr hge)]

theorem slash_vote_success_none (st : GuildState) (u v cid : Nat)
    (entry : CandidateEntry)
    (hv : ¬(v = 0 ∨ 10 < v)) (hcid : cid ≠ 0)
    (hc : lookupA st.votes (cid - 1) = some entry)
    (hprev : lookupA entry.userVotes u = none)
    (hge : v ^ 2 ≤ slash_points st u) :
    slash_vote st u v cid =
      (.ok v cid (usub (slash_points st u) (v ^ 2)),
       { st with
           points := insertA (lazyPoints st.points u) u
             (usub (slash_points st u) (v ^ 2))
           votes := insertA st.votes (cid - 1)
             { entry with
                 userVotes := insertA entry.userVotes u v
                 total := uadd entry.total v } }) := by
  unfold slash_vote
  rw [if_neg hv, if_neg hcid, hc]
  simp only [slash_points_lazy, hprev]
  rw [if_neg (not_lt.mpr hge)]

/-! ### Preservation of the quadratic-balance invariant (C1) -/

theorem usize_eq : USIZE = 18446744073709551616 := by norm_num [USIZE]

theorem prevsq_le_allocSum (st : GuildState) (u cid : Nat)
    (entry : CandidateEntry) (hc : lookupA st.votes cid = some entry) :
    ((lookupA entry.userVotes u).getD 0) ^ 2 ≤ userAllocSum st u := by
  have hm : (cid, entry) ∈ st.votes := mem_of_lookupA hc
  have hmm : ((lookupA entry.userVotes u).getD 0) ^ 2 ∈
      st.votes.map (fun p => ((lookupA p.2.userVotes u).getD 0) ^ 2) := by
    exact List.mem_map_of_mem _ hm
  exact mem_le_sum hmm

theorem slash_points_lazy_state (st : GuildState) (w x : Nat) :
    slash_points { st with points := lazyPoints st.points w } x
      = slash_points st x := by
  by_cases hx : x = w
  · subst hx
    simp [slash_points_def, lookupA_lazyPoints_self]
  · simp [slash_points_def, lookupA_lazyPoints_ne _ hx]

theorem slash_points_mk (T : List String) (P : List (Nat × Nat))
    (V : List (Nat × CandidateEntry)) (x : Nat) :
    slash_points ⟨T, P, V⟩ x = (lookupA P x).getD STARTING_POINTS := rfl

theorem userAllocSum_mk (T : List String) (P : List (Nat × Nat))
    (V : List (Nat × CandidateEntry)) (x : Nat) :
    userAllocSum ⟨T, P, V⟩ x
      = (V.map (fun p => ((lookupA p.2.userVotes x).getD 0) ^ 2)).sum := rfl

theorem allocSum_insertA2 (votesL : List (Nat × CandidateEntry)) (x idx : Nat)
    (entry : CandidateEntry) (txt : String) (t : Nat) (uv : List (Nat × Nat))
    (hc : lookupA votesL idx = some entry) :
    ((insertA votesL idx ⟨txt, t, uv⟩).map
        (fun p => ((lookupA p.2.userVotes x).getD 0) ^ 2)).sum
      + ((lookupA entry.userVotes x).getD 0) ^ 2
    = (votesL.map (fun p => ((lookupA p.2.userVotes x).getD 0) ^ 2)).sum
      + ((lookupA uv x).getD 0) ^ 2 :=
  sum_insertA _ _ hc

/-- The successful-vote state update preserves the quadratic-balance
invariant (for every user, not just the voter). -/
theorem balInv_vote_update (st : GuildState) (w v prev idx t : Nat)
    (entry : CandidateEntry)
    (hc : lookupA st.votes idx = some entry)
    (hprev : (lookupA entry.userVotes w).getD 0 = prev)
    (h : balInv st)
    (hge : v ^ 2 ≤ slash_points st w + prev ^ 2)
    (hsmall : slash_points st w + prev ^ 2 < USIZE) :
    balInv ⟨st.upcomingTopics,
      insertA (lazyPoints st.points w) w
        (usub (uadd (slash_points st w) (prev ^ 2)) (v ^ 2)),
      insertA st.votes idx ⟨entry.text, t, insertA entry.userVotes w v⟩⟩ := by
  intro x
  rw [slash_points_mk, userAllocSum_mk]
  by_cases hx : x = w
  · subst hx
    rw [lookupA_insertA_self]
    have e2 : usub (uadd (slash_points st x) (prev ^ 2)) (v ^ 2)
        = slash_points st x + prev ^ 2 - v ^ 2 := by
      rw [uadd_eq hsmall]
      exact usub_eq hge hsmall
    have hs := allocSum_insertA2 st.votes x idx entry entry.text t
      (insertA entry.userVotes x v) hc
    rw [hprev, lookupA_insertA_self] at hs
    simp only [Option.getD_some] at hs ⊢
    have hhx := h x
    simp only [userAllocSum] at hhx
    rw [e2]
    omega
  · rw [lookupA_insertA_ne _ _ hx, lookupA_lazyPoints_ne _ hx]
    have hs := allocSum_insertA2 st.votes x idx entry entry.text t
      (insertA entry.userVotes w v) hc
    rw [lookupA_insertA_ne _ _ hx] at hs
    have hhx := h x
    simp only [slash_points_def, userAllocSum] at hhx
    omega

theorem slash_vote_preserves_balInv (st : GuildState) (w v cid : Nat)
    (h : balInv st) : balInv (slash_vote st w v cid).2 := by
  by_cases hv : v = 0 ∨ 10 < v
  · rw [slash_vote_invalid st w v cid hv]
    exact h
  by_cases hcid : cid = 0
  · subst hcid
    rw [slash_vote_cid0 st w v hv]
    exact h
  cases hc : lookupA st.votes (cid - 1) with
  | none =>
    rw [slash_vote_unknown st w v cid hv hcid hc]
    exact h
  | some entry =>
    have hw := h w
    have hpre := prevsq_le_allocSum st w (cid - 1) entry hc
    have hU := usize_eq
    have hsp : STARTING_POINTS = 100 := rfl
    by_cases hlt : slash_points st w + ((lookupA entry.userVotes w).getD 0) ^ 2 < v ^ 2
    · rw [slash_vote_insufficient st w v cid entry hv hcid hc hlt]
      intro x
      have h1 := slash_points_lazy_state st w x
      have h2 : userAllocSum { st with points := lazyPoints st.points w } x
          = userAllocSum st x := rfl
      rw [h1, h2]
      exact h x
    · push_neg at hlt
      have hsmall : slash_points st w + ((lookupA entry.userVotes w).getD 0) ^ 2
          < USIZE := by omega
      cases hprev : lookupA entry.userVotes w with
      | some prev =>
        rw [hprev] at hlt hsmall
        simp only [Option.getD_some] at hlt hsmall
        rw [slash_vote_success_some st w v cid entry prev hv hcid hc hprev hlt]
        exact balInv_vote_update st w v prev (cid - 1)
          (uadd (usub entry.total prev) v) entry hc
          (by rw [hprev]; rfl) h hlt hsmall
      | none =>
        rw [hprev] at hlt hsmall
        simp only [Option.getD_none] at hlt hsmall
        have hz : (0 : Nat) ^ 2 = 0 := by norm_num
        have hlt2 : v ^ 2 ≤ slash_points st w := by omega
        rw [slash_vote_success_none st w v cid entry hv hcid hc hprev hlt2]
        have heq : usub (uadd (slash_points st w) (0 ^ 2)) (v ^ 2)
            = usub (slash_points st w) (v ^ 2) := by
          rw [hz, uadd_eq (by omega), Nat.add_zero]
        have hres := balInv_vote_update st w v 0 (cid - 1)
          (uadd entry.total v) entry hc
          (by rw [hprev]; rfl) h (by omega) (by omega)
        rw [heq] at hres
        exact hres

theorem balInv_start (st : GuildState) (h : StartOfVoting st) : balInv st := by
  intro x
  obtain ⟨hp, hv⟩ := h
  have h1 : slash_points st x = STARTING_POINTS := by
    rcases hp x with h0 | h0 <;> simp [slash_points_def, h0]
  have h2 : userAllocSum st x = 0 := by
    unfold userAllocSum
    apply List.sum_eq_zero
    intro y hy
    rcases List.mem_map.mp hy with ⟨p, hpmem, rfl⟩
    rw [hv p hpmem]
    simp [lookupA]
  omega

theorem applyVotes_preserves (ops : List (Nat × Nat × Nat)) (st : GuildState)
    (h : balInv st) : balInv (applyVotes st ops) := by
  induction ops generalizing st with
  | nil => exact h
  | cons op rest ih =>
    exact ih _ (slash_vote_preserves_balInv st op.1 op.2.1 op.2.2 h)

/-! ### Claim theorems -/

/-- C1 (invariants): for every community and user, after any
sequence of `cast_vote` calls within one voting phase (started with all
balances at the constant and no allocations), the user's balance plus
the sum of squares of that user's current allocations equals the
starting constant 100 — equivalently the balance is exactly
`100 - Σ votes²`, hence never negative, and the allocation sum never
exceeds 100. -/
theorem c1_quadratic_balance_invariant (st : GuildState)
    (ops : List (Nat × Nat × Nat)) (h : StartOfVoting st) (u : Nat) :
    slash_points (applyVotes st ops) u + userAllocSum (applyVotes st ops) u
        = STARTING_POINTS ∧
    slash_points (applyVotes st ops) u
        = STARTING_POINTS - userAllocSum (applyVotes st ops) u := by
  have hb := applyVotes_preserves ops st (balInv_start st h) u
  omega

/-- Witness for C1 at a concrete start state and call sequence. -/
theorem c1_witness :
    StartOfVoting ⟨[], [], [(0, ⟨"A", 0, []⟩), (1, ⟨"B", 0, []⟩)]⟩ ∧
    slash_points (applyVotes ⟨[], [], [(0, ⟨"A", 0, []⟩), (1, ⟨"B", 0, []⟩)]⟩
        [(1, 3, 1), (2, 7, 2), (1, 5, 1), (1, 6, 2), (1, 9, 1)]) 1
      + userAllocSum (applyVotes ⟨[], [], [(0, ⟨"A", 0, []⟩), (1, ⟨"B", 0, []⟩)]⟩
        [(1, 3, 1), (2, 7, 2), (1, 5, 1), (1, 6, 2), (1, 9, 1)]) 1
      = STARTING_POINTS := by
  have hstart : StartOfVoting ⟨[], [], [(0, ⟨"A", 0, []⟩), (1, ⟨"B", 0, []⟩)]⟩ := by
    constructor
    · intro u
      exact Or.inl rfl
    · intro p hp
      simp only [List.mem_cons, List.not_mem_nil, or_false] at hp
      rcases hp with rfl | rfl <;> rfl
  exact ⟨hstart, (c1_quadratic_balance_invariant _ _ hstart 1).1⟩

/-- C2 (functional correctness): a `cast_vote` on an existing
candidate with `requested_votes ∈ [1, 10]` and
`available = balance + old² ≥ requested_votes²` succeeds, sets the
allocation to `requested_votes`, sets the balance to
`available − requested_votes²`, and changes the candidate's aggregate
total by exactly `requested_votes − old` (stated additively).  The
well-formedness hypotheses (`balance ≤ 100`, `old ≤ 10`,
`old ≤ total`, `total + v < 2^64`) hold in every reachable state. -/
theorem c2_cast_vote_success (st : GuildState) (u v cid : Nat)
    (entry : CandidateEntry)
    (hv1 : 1 ≤ v) (hv2 : v ≤ 10) (hcid : 1 ≤ cid)
    (hc : lookupA st.votes (cid - 1) = some entry)
    (hbal : slash_points st u ≤ STARTING_POINTS)
    (hold : (lookupA entry.userVotes u).getD 0 ≤ 10)
    (holdtot : (lookupA entry.userVotes u).getD 0 ≤ entry.total)
    (htot : entry.total + v < USIZE)
    (hsucc : v ^ 2 ≤ slash_points st u + ((lookupA entry.userVotes u).getD 0) ^ 2) :
    ∃ entry2 : CandidateEntry,
      lookupA (slash_vote st u v cid).2.votes (cid - 1) = some entry2 ∧
      lookupA entry2.userVotes u = some v ∧
      entry2.total + (lookupA entry.userVotes u).getD 0 = entry.total + v ∧
      slash_points (slash_vote st u v cid).2 u
        = slash_points st u + ((lookupA entry.userVotes u).getD 0) ^ 2 - v ^ 2 ∧
      (slash_vote st u v cid).1
        = VoteResult.ok v cid
            (slash_points st u + ((lookupA entry.userVotes u).getD 0) ^ 2 - v ^ 2) := by
  have hv : ¬(v = 0 ∨ 10 < v) := by omega
  have hcid0 : cid ≠ 0 := by omega
  have hU := usize_eq
  have hsp : STARTING_POINTS = 100 := rfl
  cases hprev : lookupA entry.userVotes u with
  | some prev =>
    rw [hprev] at hold holdtot hsucc
    simp only [Option.getD_some] at hold holdtot hsucc ⊢
    have hps : prev ^ 2 ≤ 100 := by
      have hpp := Nat.pow_le_pow_left hold 2
      norm_num at hpp
      exact hpp
    rw [slash_vote_success_some st u v cid entry prev hv hcid0 hc hprev hsucc]
    refine ⟨_, lookupA_insertA_self _ _ _, ?_, ?_, ?_, ?_⟩
    · exact lookupA_insertA_self _ _ _
    · show uadd (usub entry.total prev) v + prev = entry.total + v
      rw [usub_eq holdtot (by omega), uadd_eq (by omega)]
      omega
    · show (lookupA (insertA (lazyPoints st.points u) u
          (usub (uadd (slash_points st u) (prev ^ 2)) (v ^ 2))) u).getD
          STARTING_POINTS
        = slash_points st u + prev ^ 2 - v ^ 2
      rw [lookupA_insertA_self]
      simp only [Option.getD_some]
      rw [uadd_eq (by omega)]
      exact usub_eq hsucc (by omega)
    · show VoteResult.ok v cid (usub (uadd (slash_points st u) (prev ^ 2)) (v ^ 2))
        = VoteResult.ok v cid (slash_points st u + prev ^ 2 - v ^ 2)
      rw [uadd_eq (by omega), usub_eq hsucc (by omega)]
  | none =>
    rw [hprev] at hold holdtot hsucc
    simp only [Option.getD_none] at hsucc ⊢
    have hsucc2 : v ^ 2 ≤ slash_points st u := by simpa using hsucc
    rw [slash_vote_success_none st u v cid entry hv hcid0 hc hprev hsucc2]
    refine ⟨_, lookupA_insertA_self _ _ _, ?_, ?_, ?_, ?_⟩
    · exact lookupA_insertA_self _ _ _
    · show uadd entry.total v + 0 = entry.total + v
      rw [uadd_eq (by omega)]
      omega
    · show (lookupA (insertA (lazyPoints st.points u) u
          (usub (slash_points st u) (v ^ 2))) u).getD STARTING_POINTS
        = slash_points st u + 0 ^ 2 - v ^ 2
      rw [lookupA_insertA_self]
      simp only [Option.getD_some]
      rw [usub_eq hsucc2 (by omega)]
      norm_num
    · show VoteResult.ok v cid (usub (slash_points st u) (v ^ 2))
        = VoteResult.ok v cid (slash_points st u + 0 ^ 2 - v ^ 2)
      rw [usub_eq hsucc2 (by omega)]
      norm_num

/-- Witness for C2: the spec's revote chain 3 → 5 → 10 on one candidate
from a fresh balance of 100 leaves balances 91, 75 and 0; the first step
is obtained from the theorem. -/
theorem c2_witness :
    (∃ entry2 : CandidateEntry,
      lookupA (slash_vote ⟨[], [], [(0, ⟨"Pool", 0, []⟩)]⟩ 1 3 1).2.votes (1 - 1)
          = some entry2 ∧
      lookupA entry2.userVotes 1 = some 3 ∧
      entry2.total
          + (lookupA (⟨"Pool", 0, []⟩ : CandidateEntry).userVotes 1).getD 0
        = (⟨"Pool", 0, []⟩ : CandidateEntry).total + 3 ∧
      slash_points (slash_vote ⟨[], [], [(0, ⟨"Pool", 0, []⟩)]⟩ 1 3 1).2 1
        = slash_points ⟨[], [], [(0, ⟨"Pool", 0, []⟩)]⟩ 1
            + ((lookupA (⟨"Pool", 0, []⟩ : CandidateEntry).userVotes 1).getD 0) ^ 2
            - 3 ^ 2 ∧
      (slash_vote ⟨[], [], [(0, ⟨"Pool", 0, []⟩)]⟩ 1 3 1).1
        = VoteResult.ok 3 1
            (slash_points ⟨[], [], [(0, ⟨"Pool", 0, []⟩)]⟩ 1
              + ((lookupA (⟨"Pool", 0, []⟩ : CandidateEntry).userVotes 1).getD 0) ^ 2
              - 3 ^ 2)) ∧
    slash_points (slash_vote ⟨[], [], [(0, ⟨"Pool", 0, []⟩)]⟩ 1 3 1).2 1 = 91 ∧
    slash_points (slash_vote
      (slash_vote ⟨[], [], [(0, ⟨"Pool", 0, []⟩)]⟩ 1 3 1).2 1 5 1).2 1 = 75 ∧
    slash_points (slash_vote (slash_vote
      (slash_vote ⟨[], [], [(0, ⟨"Pool", 0, []⟩)]⟩ 1 3 1).2 1 5 1).2 1 10 1).2 1
      = 0 := by
  refine ⟨?_, by decide, by decide, by decide⟩
  exact c2_cast_vote_success ⟨[], [], [(0, ⟨"Pool", 0, []⟩)]⟩ 1 3 1 ⟨"Pool", 0, []⟩
    (by norm_num) (by norm_num) (by norm_num) (by decide) (by decide) (by decide)
    (by decide) (by norm_num [usize_eq]) (by decide)

/-- C3 counterexample: the claim says `cast_vote` fails with
`InsufficientCredits` *exactly when* `available < requested_votes²`.
At the spec's own state (balance 19 after casting 9 votes,
`available = 19 + 81 = 100`), requesting 11 votes has
`available = 100 < 121 = requested²`, yet the code rejects the request
with the vote-count-range error ("between 1 and 10"), not with
`InsufficientCredits` — the range check at line 753 runs first. -/
theorem c3_counterexample :
    slash_points ⟨[], [(1, 19)], [(0, ⟨"A", 9, [(1, 9)]⟩)]⟩ 1
        + ((lookupA (⟨"A", 9, [(1, 9)]⟩ : CandidateEntry).userVotes 1).getD 0) ^ 2
        < 11 ^ 2 ∧
    (slash_vote ⟨[], [(1, 19)], [(0, ⟨"A", 9, [(1, 9)]⟩)]⟩ 1 11 1).1
        = VoteResult.invalidVoteCount ∧
    ((slash_vote ⟨[], [(1, 19)], [(0, ⟨"A", 9, [(1, 9)]⟩)]⟩ 1 11 1).1).isInsufficient
        = false := by
  decide

/-- C3 amended: for requests within the valid vote range `[1, 10]`
on an existing candidate, `cast_vote` fails with `InsufficientCredits`
exactly when `available = balance + old²` is strictly less than
`requested_votes²` (so a cost exactly equal to `available` succeeds),
and on that failure the user's balance, every other balance, all vote
allocations and the proposal list are unchanged.  Out-of-range requests
fail earlier with the vote-count-range error. -/
theorem c3_amended (st : GuildState) (u v cid : Nat) (entry : CandidateEntry)
    (hv1 : 1 ≤ v) (hv2 : v ≤ 10) (hcid : 1 ≤ cid)
    (hc : lookupA st.votes (cid - 1) = some entry) :
    (((slash_vote st u v cid).1).isInsufficient = true ↔
        slash_points st u + ((lookupA entry.userVotes u).getD 0) ^ 2 < v ^ 2) ∧
    (slash_points st u + ((lookupA entry.userVotes u).getD 0) ^ 2 < v ^ 2 →
        (∀ x, slash_points (slash_vote st u v cid).2 x = slash_points st x) ∧
        (slash_vote st u v cid).2.votes = st.votes ∧
        (slash_vote st u v cid).2.upcomingTopics = st.upcomingTopics) := by
  have hv : ¬(v = 0 ∨ 10 < v) := by omega
  have hcid0 : cid ≠ 0 := by omega
  by_cases hlt : slash_points st u + ((lookupA entry.userVotes u).getD 0) ^ 2 < v ^ 2
  · rw [slash_vote_insufficient st u v cid entry hv hcid0 hc hlt]
    refine ⟨by simp [VoteResult.isInsufficient, hlt], fun _ => ⟨?_, rfl, rfl⟩⟩
    intro x
    exact slash_points_lazy_state st u x
  · push_neg at hlt
    cases hprev : lookupA entry.userVotes u with
    | some prev =>
      rw [hprev] at hlt
      simp only [Option.getD_some] at hlt ⊢
      rw [slash_vote_success_some st u v cid entry prev hv hcid0 hc hprev hlt]
      constructor
      · simp only [VoteResult.isInsufficient]
        constructor
        · intro hfalse
          exact absurd hfalse (by simp)
        · intro hlt2
          omega
      · intro hlt2
        omega
    | none =>
      rw [hprev] at hlt
      simp only [Option.getD_none] at hlt ⊢
      have hlt2 : v ^ 2 ≤ slash_points st u := by simpa using hlt
      rw [slash_vote_success_none st u v cid entry hv hcid0 hc hprev hlt2]
      constructor
      · simp only [VoteResult.isInsufficient]
        constructor
        · intro hfalse
          exact absurd hfalse (by simp)
        · intro hlt3
          omega
      · intro hlt3
        omega

/-- Witness for C3 amended: from balance 18 with 9 votes already cast
(`available = 18 + 81 = 99`), requesting 10 votes (cost 100) fails as
insufficient and leaves the vote table unchanged; from balance 19
(`available = 100`, cost exactly equal) the same request succeeds. -/
theorem c3_witness :
    ((slash_vote ⟨[], [(1, 18)], [(0, ⟨"A", 9, [(1, 9)]⟩)]⟩ 1 10 1).1).isInsufficient
        = true ∧
    (slash_vote ⟨[], [(1, 18)], [(0, ⟨"A", 9, [(1, 9)]⟩)]⟩ 1 10 1).2.votes
        = [(0, ⟨"A", 9, [(1, 9)]⟩)] ∧
    ((slash_vote ⟨[], [(1, 19)], [(0, ⟨"A", 9, [(1, 9)]⟩)]⟩ 1 10 1).1).isInsufficient
        = false := by
  have T := c3_amended ⟨[], [(1, 18)], [(0, ⟨"A", 9, [(1, 9)]⟩)]⟩ 1 10 1
    ⟨"A", 9, [(1, 9)]⟩ (by norm_num) (by norm_num) (by norm_num) (by decide)
  refine ⟨T.1.mpr (by decide), ?_, by decide⟩
  have h2 := (T.2 (by decide)).2.1
  rw [h2]

/-- C4 (concurrency, code bug): the credit check of `slash_vote`
runs under read locks that are dropped (lines 784–799) before the
update section re-acquires locks and debits (lines 803–822), so two
requests by the same user can both pass the check before either debit
runs.  From balance 100, two concurrent casts of 8 votes (cost 64 each)
on candidates 1 and 2 both pass the check; executing both updates
leaves the balance at `2^64 − 28` (the `fetch_sub` underflows and wraps)
— not equal to the outcome of either serial order, which is 36 (first
call succeeds, second fails with insufficient credits).  This violates
the claim that the compound check-and-debit is one atomic transaction
with some serial outcome. -/
theorem c4_double_spend_race :
    voteCheckPasses ⟨[], [(1, 100)], [(0, ⟨"A", 0, []⟩), (1, ⟨"B", 0, []⟩)]⟩
        1 8 0 = true ∧
    voteCheckPasses ⟨[], [(1, 100)], [(0, ⟨"A", 0, []⟩), (1, ⟨"B", 0, []⟩)]⟩
        1 8 1 = true ∧
    slash_points (voteApply (voteApply
        ⟨[], [(1, 100)], [(0, ⟨"A", 0, []⟩), (1, ⟨"B", 0, []⟩)]⟩ 1 8 0) 1 8 1) 1
        = 2 ^ 64 - 28 ∧
    slash_points (slash_vote (slash_vote
        ⟨[], [(1, 100)], [(0, ⟨"A", 0, []⟩), (1, ⟨"B", 0, []⟩)]⟩ 1 8 1).2 1 8 2).2 1
        = 36 ∧
    slash_points (slash_vote (slash_vote
        ⟨[], [(1, 100)], [(0, ⟨"A", 0, []⟩), (1, ⟨"B", 0, []⟩)]⟩ 1 8 2).2 1 8 1).2 1
        = 36 ∧
    (2 : Nat) ^ 64 - 28 ≠ 36 := by
  decide

/-- C5 counterexample: `winners` (lines 293–312) maps the votes
table to `(text, total)` pairs in `HashMap::values()` iteration order —
the candidate ids are discarded before sorting — and sorts with the
stable `sort_by` on the count only.  With candidates A=id 0 (5 votes),
B=id 1 (9), C=id 2 (9), D=id 3 (1) and the perfectly possible iteration
order C, B, A, D, the ranking keeps C before B, not the claimed
ascending-id order B, C, A, D. -/
theorem c5_tiebreak_counterexample :
    winners [("C", 9), ("B", 9), ("A", 5), ("D", 1)]
        = ["C: 9", "B: 9", "A: 5", "D: 1"] ∧
    winners [("C", 9), ("B", 9), ("A", 5), ("D", 1)]
        ≠ ["B: 9", "C: 9", "A: 5", "D: 1"] := by
  decide

theorem insertDesc_perm (x : String × Nat) (l : List (String × Nat)) :
    (insertDesc x l).Perm (x :: l) := by
  induction l with
  | nil => simp [insertDesc]
  | cons y ys ih =>
    by_cases hc : y.2 ≤ x.2
    · simp [insertDesc, hc]
    · simp only [insertDesc, if_neg hc]
      exact List.Perm.trans (List.Perm.cons y ih) (List.Perm.swap x y ys)

theorem sortDesc_perm (l : List (String × Nat)) : (sortDesc l).Perm l := by
  induction l with
  | nil => simp [sortDesc]
  | cons y ys ih =>
    exact List.Perm.trans (insertDesc_perm y (sortDesc ys)) (List.Perm.cons y ih)

theorem pairwise_insertDesc (x : String × Nat) (l : List (String × Nat))
    (h : l.Pairwise (fun a b => b.2 ≤ a.2)) :
    (insertDesc x l).Pairwise (fun a b => b.2 ≤ a.2) := by
  induction l with
  | nil => simp [insertDesc]
  | cons y ys ih =>
    rw [List.pairwise_cons] at h
    obtain ⟨hy, hys⟩ := h
    by_cases hc : y.2 ≤ x.2
    · simp only [insertDesc, if_pos hc]
      refine List.Pairwise.cons ?_ (List.Pairwise.cons hy hys)
      intro b hb
      rcases List.mem_cons.mp hb with rfl | hb2
      · exact hc
      · exact le_trans (hy b hb2) hc
    · simp only [insertDesc, if_neg hc]
      refine List.Pairwise.cons ?_ (ih hys)
      intro b hb
      have hb3 := (insertDesc_perm x ys).mem_iff.mp hb
      rcases List.mem_cons.mp hb3 with rfl | hb4
      · omega
      · exact hy b hb4

theorem sortDesc_pairwise (l : List (String × Nat)) :
    (sortDesc l).Pairwise (fun a b => b.2 ≤ a.2) := by
  induction l with
  | nil => simp [sortDesc]
  | cons y ys ih => exact pairwise_insertDesc y (sortDesc ys) ih

/-- C5 amended: `winners` formats the first `CONVENIENT_WINNERS`
elements of a stable sort of the `(text, total)` pairs by aggregate vote
count in descending order; the output is a permutation of the input
restricted to the taken elements, its counts are non-increasing and its
length is `min 5 (number of candidates)` — but ties are broken by the
votes map's unspecified iteration order (stable sort), not by ascending
candidate id. -/
theorem c5_ranking_amended (l : List (String × Nat)) :
    winners l = ((sortDesc l).take CONVENIENT_WINNERS).map
        (fun w => w.1 ++ ": " ++ toString w.2) ∧
    (sortDesc l).Perm l ∧
    (sortDesc l).Pairwise (fun a b => b.2 ≤ a.2) ∧
    (winners l).length = min CONVENIENT_WINNERS l.length := by
  refine ⟨rfl, sortDesc_perm l, sortDesc_pairwise l, ?_⟩
  show (((sortDesc l).take CONVENIENT_WINNERS).map
      (fun w => w.1 ++ ": " ++ toString w.2)).length = _
  rw [List.length_map, List.length_take, (sortDesc_perm l).length_eq]

/-! ### `slash_stop_internal` lemmas and claims C6, C7, C9 -/

theorem isEmpty_false_of_ne_nil {α : Type} {l : List α} (h : l ≠ []) :
    l.isEmpty = false := by
  cases l with
  | nil => exact absurd rfl h
  | cons a t => rfl

theorem insertA_ne_nil {α : Type} (m : List (Nat × α)) (k : Nat) (v : α) :
    insertA m k v ≠ [] := by
  cases m with
  | nil => simp [insertA]
  | cons hd tl =>
    obtain ⟨k1, v1⟩ := hd
    by_cases h : k1 = k <;> simp [insertA, h]

theorem foldl_insertA_ne_nil (l : List (Nat × String))
    (acc : List (Nat × CandidateEntry))
    (h : acc ≠ [] ∨ l ≠ []) :
    l.foldl (fun a p => insertA a p.1 ⟨p.2, 0, []⟩) acc ≠ [] := by
  induction l generalizing acc with
  | nil =>
    rcases h with h | h
    · exact h
    · exact absurd rfl h
  | cons p t ih =>
    exact ih _ (Or.inl (insertA_ne_nil _ _ _))

theorem freezeCandidates_ne_nil (m : List (Nat × CandidateEntry))
    (names : List String) (h : names ≠ []) : freezeCandidates m names ≠ [] := by
  unfold freezeCandidates
  apply foldl_insertA_ne_nil
  right
  intro he
  apply h
  have hl := congrArg List.length he
  simp only [List.enum_length, List.length_nil] at hl
  exact List.length_eq_zero.mp hl

theorem slash_stop_suggestion (st : GuildState) (h : st.upcomingTopics ≠ []) :
    slash_stop_internal st =
      (StopResult.movedToVoting st.upcomingTopics.length,
       { st with
           votes := freezeCandidates st.votes st.upcomingTopics
           upcomingTopics := [] }) := by
  unfold slash_stop_internal
  rw [if_pos (show in_suggestion_period st = true by
    unfold in_suggestion_period
    rw [isEmpty_false_of_ne_nil h]
    rfl)]

theorem slash_stop_completed (st : GuildState) (h1 : st.upcomingTopics = [])
    (h2 : st.votes ≠ []) :
    slash_stop_internal st =
      (StopResult.electionCompleted
         (winners (st.votes.map (fun p => (p.2.text, p.2.total)))),
       { st with
           votes := []
           points := st.points.map (fun p => (p.1, STARTING_POINTS)) }) := by
  unfold slash_stop_internal
  rw [if_neg (show ¬in_suggestion_period st = true by
      unfold in_suggestion_period
      rw [h1]
      simp),
    if_pos (show in_vote_period st = true by
      unfold in_vote_period
      rw [isEmpty_false_of_ne_nil h2]
      rfl)]

theorem lookupA_map_const (p : List (Nat × Nat)) (u c : Nat) :
    lookupA (p.map (fun q => (q.1, c))) u = (lookupA p u).map (fun _ => c) := by
  induction p with
  | nil => rfl
  | cons hd tl ih =>
    obtain ⟨k1, v1⟩ := hd
    by_cases h : k1 = u <;> simp [lookupA, h, ih]

/-- C6 counterexample: after a stop completed the
Suggestion → Voting transition (one topic frozen into the candidate
table), a duplicate of the same stop request is *not* a no-op: it takes
the `in_vote_period` branch, announces winners, clears the candidate
table and resets balances, so the community does not remain in the
voting phase.  (This code has no phase timers at all; a stale timer was
specified to issue exactly this request.) -/
theorem c6_counterexample :
    in_vote_period ((slash_stop_internal ⟨["Add a pool"], [(1, 91)], []⟩).2)
        = true ∧
    (slash_stop_internal ((slash_stop_internal
        ⟨["Add a pool"], [(1, 91)], []⟩).2)).2
      ≠ (slash_stop_internal ⟨["Add a pool"], [(1, 91)], []⟩).2 ∧
    in_vote_period ((slash_stop_internal ((slash_stop_internal
        ⟨["Add a pool"], [(1, 91)], []⟩).2)).2) = false ∧
    (slash_stop_internal ((slash_stop_internal
        ⟨["Add a pool"], [(1, 91)], []⟩).2)).1
      ≠ StopResult.noActiveElection := by
  decide

/-- C6 amended: once the Suggestion → Voting transition has
completed (topics empty, candidate table non-empty), a duplicate stop
request ends the voting phase instead of being a no-op: it announces the
winners, clears the candidate table and resets every known balance to
the starting constant, leaving the community out of the voting phase. -/
theorem c6_amended (st : GuildState) (h1 : st.upcomingTopics = [])
    (h2 : st.votes ≠ []) :
    (slash_stop_internal st).1
        = StopResult.electionCompleted
            (winners (st.votes.map (fun p => (p.2.text, p.2.total)))) ∧
    (slash_stop_internal st).2.votes = [] ∧
    (slash_stop_internal st).2.points
        = st.points.map (fun p => (p.1, STARTING_POINTS)) ∧
    in_vote_period (slash_stop_internal st).2 = false := by
  rw [slash_stop_completed st h1 h2]
  exact ⟨rfl, rfl, rfl, rfl⟩

/-- Witness for C6 amended at a concrete mid-voting state. -/
theorem c6_witness :
    (([(0, ⟨"X", 3, [(1, 3)]⟩)] : List (Nat × CandidateEntry)) ≠ []) ∧
    (slash_stop_internal ⟨[], [(1, 91)], [(0, ⟨"X", 3, [(1, 3)]⟩)]⟩).2.votes
        = [] ∧
    in_vote_period
        (slash_stop_internal ⟨[], [(1, 91)], [(0, ⟨"X", 3, [(1, 3)]⟩)]⟩).2
      = false := by
  have T := c6_amended ⟨[], [(1, 91)], [(0, ⟨"X", 3, [(1, 3)]⟩)]⟩ rfl (by decide)
  exact ⟨by decide, T.2.1, T.2.2.2⟩

/-- C7 (algebraic/relational): for any non-empty proposal set,
freezing the candidates (the Suggestion → Voting branch of stop) and
then immediately clearing (the Voting → Suggestion branch) with no votes
cast in between returns every user's balance to the starting constant
100, and leaves the candidate table and the topic list empty — ready
for a new suggestion phase. -/
theorem c7_round_trip (st : GuildState) (h : st.upcomingTopics ≠ []) :
    (slash_stop_internal (slash_stop_internal st).2).2.votes = [] ∧
    (slash_stop_internal (slash_stop_internal st).2).2.upcomingTopics = [] ∧
    ∀ u, slash_points (slash_stop_internal (slash_stop_internal st).2).2 u
        = STARTING_POINTS := by
  rw [slash_stop_suggestion st h]
  rw [slash_stop_completed _ rfl
    (freezeCandidates_ne_nil st.votes st.upcomingTopics h)]
  refine ⟨rfl, rfl, ?_⟩
  intro u
  show (lookupA (st.points.map (fun p => (p.1, STARTING_POINTS))) u).getD
      STARTING_POINTS = STARTING_POINTS
  rw [lookupA_map_const]
  cases lookupA st.points u <;> rfl

/-- Witness for C7 at a concrete pre-freeze state, checking both a known
user (balance 37) and an unknown user. -/
theorem c7_witness :
    ((["Add a pool"] : List String) ≠ []) ∧
    (slash_stop_internal (slash_stop_internal
        ⟨["Add a pool"], [(1, 37)], []⟩).2).2.votes = [] ∧
    (slash_stop_internal (slash_stop_internal
        ⟨["Add a pool"], [(1, 37)], []⟩).2).2.upcomingTopics = [] ∧
    slash_points (slash_stop_internal (slash_stop_internal
        ⟨["Add a pool"], [(1, 37)], []⟩).2).2 1 = STARTING_POINTS ∧
    slash_points (slash_stop_internal (slash_stop_internal
        ⟨["Add a pool"], [(1, 37)], []⟩).2).2 999 = STARTING_POINTS := by
  have T := c7_round_trip ⟨["Add a pool"], [(1, 37)], []⟩ (by decide)
  exact ⟨by decide, T.1, T.2.1, T.2.2 1, T.2.2 999⟩

/-- C9 (error handling): a stop request on a community whose
proposal set and candidate table are both empty reports that there is no
active election and returns the state completely unchanged — no
balance, vote allocation or proposal is mutated. -/
theorem c9_stop_no_active_election (st : GuildState)
    (h1 : st.upcomingTopics = []) (h2 : st.votes = []) :
    slash_stop_internal st = (StopResult.noActiveElection, st) := by
  unfold slash_stop_internal
  rw [if_neg (show ¬in_suggestion_period st = true by
      unfold in_suggestion_period
      rw [h1]
      simp),
    if_neg (show ¬in_vote_period st = true by
      unfold in_vote_period
      rw [h2]
      simp)]

/-- Witness for C9 at a concrete idle state with one known balance. -/
theorem c9_witness :
    slash_stop_internal ⟨[], [(1, 42)], []⟩
      = (StopResult.noActiveElection, ⟨[], [(1, 42)], []⟩) :=
  c9_stop_no_active_election ⟨[], [(1, 42)], []⟩ rfl rfl

/-! ### Proposal handling: claims C8 and C10 -/

/-- C8 counterexample: the duplicate check (line 713) is
`Vec::contains` on the exact trimmed text — not case-normalized.
Proposing `"Add a pool"` and then `"ADD A POOL"` (case-normalized-equal
texts) does *not* report `DuplicateProposal`: the second call is
accepted and the proposal set grows to size 2, not 1. -/
theorem c8_counterexample :
    (handle_prop ⟨[], [], []⟩ "Add a pool").1 = PropResult.added ∧
    (handle_prop ⟨[], [], []⟩ "Add a pool").2.upcomingTopics = ["Add a pool"] ∧
    (handle_prop ⟨["Add a pool"], [], []⟩ "ADD A POOL").1 = PropResult.added ∧
    (handle_prop ⟨["Add a pool"], [], []⟩ "ADD A POOL").2.upcomingTopics.length
        = 2 := by
  decide

/-- C8 amended: duplicate detection uses exact equality of the
*whitespace-trimmed* texts (case-sensitive).  A proposal whose trimmed
text is fresh is accepted once; resubmitting any text with the same
trimmed form (e.g. with incidental trailing whitespace) reports
`DuplicateProposal` and leaves the proposal set unchanged, so the set
size stays at its incremented value; case-differing resubmissions are
accepted as new proposals. -/
theorem c8_amended (st : GuildState) (s r : String)
    (hphase : st.votes = [])
    (hs1 : rustTrim s ≠ "") (hs2 : ¬(100 < utf8Len (rustTrim s)))
    (hnew : rustTrim s ∉ st.upcomingTopics)
    (htrim : rustTrim r = rustTrim s) :
    (handle_prop st s).1 = PropResult.added ∧
    (handle_prop st s).2.upcomingTopics = st.upcomingTopics ++ [rustTrim s] ∧
    (handle_prop st s).2.upcomingTopics.length
        = st.upcomingTopics.length + 1 ∧
    handle_prop (handle_prop st s).2 r
      = (PropResult.duplicateProposal, (handle_prop st s).2) := by
  have h1 : handle_prop st s
      = (PropResult.added,
         { st with upcomingTopics := st.upcomingTopics ++ [rustTrim s] }) := by
    unfold handle_prop
    rw [if_neg hs1, if_neg hs2,
      if_neg (show ¬(in_vote_period st = true) by
        simp [in_vote_period, hphase]),
      if_neg hnew]
  rw [h1]
  refine ⟨rfl, rfl, by simp, ?_⟩
  unfold handle_prop
  rw [htrim]
  rw [if_neg hs1, if_neg hs2,
    if_neg (show ¬(in_vote_period
        { st with upcomingTopics := st.upcomingTopics ++ [rustTrim s] } = true) by
      simp [in_vote_period, hphase]),
    if_pos (show rustTrim s ∈ st.upcomingTopics ++ [rustTrim s] by simp)]

/-- Witness for C8 amended: the spec's scenario, `"Add a pool"` then the
same text with incidental trailing whitespace; the second call reports a
duplicate and the set size stays 1. -/
theorem c8_witness :
    rustTrim "Add a pool   " = rustTrim "Add a pool" ∧
    (handle_prop ⟨[], [], []⟩ "Add a pool").1 = PropResult.added ∧
    handle_prop (handle_prop ⟨[], [], []⟩ "Add a pool").2 "Add a pool   "
      = (PropResult.duplicateProposal, (handle_prop ⟨[], [], []⟩ "Add a pool").2) ∧
    (handle_prop ⟨[], [], []⟩ "Add a pool").2.upcomingTopics.length = 1 := by
  have T := c8_amended ⟨[], [], []⟩ "Add a pool" "Add a pool   "
    rfl (by decide) (by decide) (by decide) (by decide)
  exact ⟨by decide, T.1, T.2.2.2, by decide⟩

theorem length_le_sum_utf8 (l : List Char) :
    l.length ≤ (l.map Char.utf8Size).sum := by
  induction l with
  | nil => simp
  | cons c t ih =>
    simp only [List.length_cons, List.map_cons, List.sum_cons]
    have hc : 1 ≤ c.utf8Size := Char.utf8Size_pos c
    omega

theorem length_le_utf8Len (s : String) : s.length ≤ utf8Len s :=
  length_le_sum_utf8 s.data

/-- C10 (implicit, error handling): a `/prop` call whose trimmed
text is longer than 100 characters is rejected (the code's cap is 100
UTF-8 *bytes*, `idea.len() > 100`, and a text of more than 100
characters always occupies more than 100 bytes), and the state — in
particular the proposal set — is unchanged. -/
theorem c10_length_cap (st : GuildState) (s : String)
    (h : 100 < (rustTrim s).length) :
    handle_prop st s = (PropResult.tooLong, st) := by
  unfold handle_prop
  rw [if_neg (show ¬(rustTrim s = "") by
      intro he
      rw [he] at h
      simp [String.length] at h),
    if_pos (show 100 < utf8Len (rustTrim s) from
      lt_of_lt_of_le h (length_le_utf8Len _))]

/-- Witness for C10 at a 101-character proposal. -/
theorem c10_witness :
    100 < (rustTrim (String.mk (List.replicate 101 'a'))).length ∧
    handle_prop ⟨["other"], [], []⟩ (String.mk (List.replicate 101 'a'))
      = (PropResult.tooLong, ⟨["other"], [], []⟩) :=
  ⟨by decide, c10_length_cap ⟨["other"], [], []⟩ _ (by decide)⟩

end QV
